import Mathlib

set_option maxHeartbeats 1000000

/-!
Shallow embedding of the `sudoku` crate (`src/lib.rs`): a 9×9 Sudoku board
with constraint queries (row / column / box peers), position arithmetic and
text parsing, together with theorems settling the specification claims.

Machine integers (`u8`, `usize`) are modelled as `Nat` — all arithmetic in
the source stays far below any overflow boundary on validated values.
Panics (`panic!`, `unwrap`, `unreachable!`) are modelled as `Option`
failure (`none`), and the parser's `Result` as `Except String`.
-/

/-- A coordinate pair on the 9×9 grid (`struct Pos { x: u8, y: u8 }`).
Values produced by the validated constructors have both fields in `[0,8]`. -/
structure Pos where
  x : Nat
  y : Nat
deriving DecidableEq, Repr

/-- `Pos::new`: panics (here: `none`) when `x > 8 || y > 8`. -/
def Pos.new (x y : Nat) : Option Pos :=
  if x > 8 ∨ y > 8 then none else some ⟨x, y⟩

/-- `Pos::from_index`: panics (here: `none`) when `i > 80`, otherwise
`x = i % 9`, `y = i / 9`. -/
def Pos.from_index (i : Nat) : Option Pos :=
  if i > 80 then none else some ⟨i % 9, i / 9⟩

/-- `Pos::to_index`: `(y * 9 + x) as usize`. -/
def Pos.to_index (p : Pos) : Nat :=
  p.y * 9 + p.x

/-- A grid cell (`struct Cell { value: Option<u8>, position: Pos }`). -/
structure Cell where
  value : Option Nat
  position : Pos
deriving DecidableEq, Repr

/-- `Cell::new`: panics (here: `none`) when a present value is `0` or `> 9`. -/
def Cell.new (value : Option Nat) (position : Pos) : Option Cell :=
  match value with
  | some x => if x = 0 ∨ x > 9 then none else some ⟨some x, position⟩
  | none => some ⟨none, position⟩

/-- The board (`struct Sudoku { cells: Vec<Cell> }`). -/
structure Sudoku where
  cells : List Cell
deriving DecidableEq, Repr

/-- The cells kept by `get_rest_of_row`'s two `filter` steps: present cells
sharing `pos.y` other than the one at `pos.x`. -/
def Sudoku.rowMatches (s : Sudoku) (pos : Pos) : List Cell :=
  (s.cells.filter (fun c => c.value.isSome)).filter
    (fun c => c.position.y == pos.y && c.position.x != pos.x)

/-- `Sudoku::get_rest_of_row`: values (`unwrap` modelled by `getD 0`; the
first filter guarantees the default is never used). -/
def Sudoku.get_rest_of_row (s : Sudoku) (pos : Pos) : List Nat :=
  (s.rowMatches pos).map (fun c => c.value.getD 0)

/-- The cells kept by `get_rest_of_column`'s two `filter` steps. -/
def Sudoku.colMatches (s : Sudoku) (pos : Pos) : List Cell :=
  (s.cells.filter (fun c => c.value.isSome)).filter
    (fun c => c.position.x == pos.x && c.position.y != pos.y)

/-- `Sudoku::get_rest_of_column`. -/
def Sudoku.get_rest_of_column (s : Sudoku) (pos : Pos) : List Nat :=
  (s.colMatches pos).map (fun c => c.value.getD 0)

/-- The box-origin computation of `get_rest_of_box`: the Rust `match` has
arms `1..=2 => 0`, `3..=5 => 3`, `_ => 6`, so coordinate `0` falls into the
wildcard arm and yields `6`. -/
def boxCoord (a : Nat) : Nat :=
  if 1 ≤ a ∧ a ≤ 2 then 0 else if 3 ≤ a ∧ a ≤ 5 then 3 else 6

/-- The cells kept by `get_rest_of_box`'s two `filter` steps: present cells
inside `[x, x+2] × [y, y+2]` other than the one at `pos` itself. -/
def Sudoku.boxMatches (s : Sudoku) (pos : Pos) : List Cell :=
  (s.cells.filter (fun c => c.value.isSome)).filter
    (fun c => decide (boxCoord pos.x ≤ c.position.x ∧
      c.position.x ≤ boxCoord pos.x + 2 ∧
      boxCoord pos.y ≤ c.position.y ∧
      c.position.y ≤ boxCoord pos.y + 2 ∧ c.position ≠ pos))

/-- `Sudoku::get_rest_of_box`. -/
def Sudoku.get_rest_of_box (s : Sudoku) (pos : Pos) : List Nat :=
  (s.boxMatches pos).map (fun c => c.value.getD 0)

/-- `Sudoku::get_cell_at_pos`: `find` over the cells; the source `unwrap`s
the result, modelled by returning the `Option` itself. -/
def Sudoku.get_cell_at_pos (s : Sudoku) (pos : Pos) : Option Cell :=
  s.cells.find? (fun c => decide (c.position = pos))

/-- `Cell::get_constraints`: row, column and box peers chained and collected
into a `HashSet`; the set is modelled as the duplicate-free list `dedup`
(element order of the hash set is unspecified in the source). -/
def Cell.get_constraints (c : Cell) (board : Sudoku) : List Nat :=
  (board.get_rest_of_row c.position ++ board.get_rest_of_column c.position ++
    board.get_rest_of_box c.position).dedup

/-- The digit mapping of `from_str`'s `match` arms: `'1'`–`'9'` give the
corresponding digit, `'.'` (and anything else) gives no value. -/
def charVal (c : Char) : Option Nat :=
  if c = '1' then some 1 else if c = '2' then some 2 else if c = '3' then some 3
  else if c = '4' then some 4 else if c = '5' then some 5 else if c = '6' then some 6
  else if c = '7' then some 7 else if c = '8' then some 8 else if c = '9' then some 9
  else none

/-- One arm of `from_str`'s `match`: builds `Cell::new(value, Pos::from_index(i))`,
with the `unreachable!` arm modelled as `none`. -/
def charToCell (i : Nat) (c : Char) : Option Cell :=
  if c = '.' then (Pos.from_index i).bind (fun p => Cell.new none p)
  else
    match charVal c with
    | some d => (Pos.from_index i).bind (fun p => Cell.new (some d) p)
    | none => none

/-- Model of Rust's `str::trim` on a character list. -/
def trim (s : List Char) : List Char :=
  ((s.dropWhile Char.isWhitespace).reverse.dropWhile Char.isWhitespace).reverse

/-- The character predicate of `from_str`'s `contains` check: an ASCII digit
is invalid iff its value is `0` or `> 9` (so exactly `'0'`), anything else is
invalid iff it is not `'.'`. -/
def invalidChar (c : Char) : Bool :=
  if c.isDigit then
    let d := c.toNat - Char.toNat '0'
    d == 0 || decide (d > 9)
  else c != '.'

/-- Collecting an iterator of fallible cell constructions (each Rust arm can
panic, modelled as `none`). -/
def optMapM {α β : Type} (f : α → Option β) : List α → Option (List β)
  | [] => some []
  | a :: l =>
    match f a, optMapM f l with
    | some b, some bs => some (b :: bs)
    | _, _ => none

/-- The error text of `from_str`'s length check. -/
def lengthErr : String := "Sudoku str size was not 81."

/-- The error text of `from_str`'s character check. -/
def charErr : String := "Sudoku str contains invalid characters."

/-- `Sudoku::from_str`: trims, checks length 81, checks the character set,
then builds the 81 cells from the enumerated characters. The source's
unreachable panics inside the construction are modelled by the final
`.error` branch. -/
def from_str (s : List Char) : Except String Sudoku :=
  if (trim s).length ≠ 81 then .error lengthErr
  else if (trim s).any invalidChar then .error charErr
  else
    match optMapM (fun p => charToCell p.1 p.2) (trim s).enum with
    | some cells => .ok ⟨cells⟩
    | none => .error "unreachable"

/-- The puzzle text used by the crate's own tests. -/
def sampleStr : String :=
  ".5..83.17...1..4..3.4..56.8....3...9.9.8245....6....7...9....5...729..861.36.72.4"

/-- The board parsed from `sampleStr`. -/
def sampleBoard : Sudoku :=
  ((from_str sampleStr.toList).toOption).getD ⟨[]⟩

example : sampleBoard.get_rest_of_row ⟨5, 4⟩ = [9, 8, 2, 5] := by decide
example : sampleBoard.get_rest_of_column ⟨5, 2⟩ = [3, 4, 7] := by decide
example : sampleBoard.get_rest_of_box ⟨7, 1⟩ = [1, 7, 4, 6, 8] := by decide
example : from_str sampleStr.toList = .ok sampleBoard := by rfl
example : sampleBoard.get_rest_of_box ⟨0, 0⟩ = [5, 8, 6, 2, 4] := by decide

/-- C3: position index conversion is a bijection between valid coordinates
and `[0,80]`: `from_index idx` yields `⟨idx % 9, idx / 9⟩` and converting
back gives `idx`, and a position built from in-range `(x, y)` has linear
index `y * 9 + x`. -/
theorem C3_index_roundtrip :
    (∀ idx : Nat, idx ≤ 80 →
      Pos.from_index idx = some ⟨idx % 9, idx / 9⟩ ∧
      (Pos.from_index idx).map Pos.to_index = some idx) ∧
    (∀ x y : Nat, x ≤ 8 → y ≤ 8 →
      (Pos.new x y).map Pos.to_index = some (y * 9 + x)) := by
  constructor
  · intro idx h
    have hn : ¬ idx > 80 := by omega
    refine ⟨by simp [Pos.from_index, hn], ?_⟩
    simp [Pos.from_index, hn, Pos.to_index]
    omega
  · intro x y hx hy
    have hn : ¬ (x > 8 ∨ y > 8) := by omega
    simp [Pos.new, hn, Pos.to_index]

/-- Witness for C3 at the concrete index 32 and coordinates (5, 3). -/
theorem C3_index_roundtrip_witness :
    (Pos.from_index 32 = some ⟨32 % 9, 32 / 9⟩ ∧
      (Pos.from_index 32).map Pos.to_index = some 32) ∧
    (Pos.new 5 3).map Pos.to_index = some (3 * 9 + 5) :=
  ⟨C3_index_roundtrip.1 32 (by decide), C3_index_roundtrip.2 5 3 (by decide) (by decide)⟩

/-- C8: out-of-range construction inputs are rejected at the construction
call (`none` models the source's panic), and in-range inputs succeed. -/
theorem C8_construction_bounds :
    (∀ y, Pos.new 9 y = none) ∧ (∀ x, Pos.new x 9 = none) ∧
    Pos.from_index 81 = none ∧ (∀ i, 80 < i → Pos.from_index i = none) ∧
    (∀ p, Cell.new (some 0) p = none) ∧ (∀ p, Cell.new (some 10) p = none) ∧
    (∀ v p, 9 < v → Cell.new (some v) p = none) ∧
    (∀ x y, x ≤ 8 → y ≤ 8 → (Pos.new x y).isSome = true) ∧
    (∀ i, i ≤ 80 → (Pos.from_index i).isSome = true) ∧
    (∀ v p, 1 ≤ v → v ≤ 9 → (Cell.new (some v) p).isSome = true) ∧
    (∀ p, (Cell.new none p).isSome = true) := by
  refine ⟨fun y => ?_, fun x => ?_, by decide, fun i hi => ?_, fun p => ?_,
    fun p => ?_, fun v p hv => ?_, fun x y hx hy => ?_, fun i hi => ?_,
    fun v p hv1 hv9 => ?_, fun p => ?_⟩
  · unfold Pos.new; rw [if_pos (by omega)]
  · unfold Pos.new; rw [if_pos (by omega)]
  · unfold Pos.from_index; rw [if_pos (by omega)]
  · simp [Cell.new]
  · simp [Cell.new]
  · simp [Cell.new]; omega
  · unfold Pos.new; rw [if_neg (by omega)]; rfl
  · unfold Pos.from_index; rw [if_neg (by omega)]; rfl
  · simp [Cell.new]; omega
  · simp [Cell.new]

/-- Witness for C8 at the concrete inputs of the claim. -/
theorem C8_construction_bounds_witness :
    Pos.new 9 0 = none ∧ Pos.new 0 9 = none ∧ Pos.from_index 81 = none ∧
    Pos.from_index 100 = none ∧ Cell.new (some 0) ⟨0, 0⟩ = none ∧
    Cell.new (some 10) ⟨0, 0⟩ = none ∧ Cell.new (some 11) ⟨0, 0⟩ = none ∧
    (Pos.new 8 8).isSome = true ∧ (Pos.from_index 80).isSome = true ∧
    (Cell.new (some 9) ⟨0, 0⟩).isSome = true ∧
    (Cell.new none ⟨0, 0⟩).isSome = true :=
  ⟨C8_construction_bounds.1 0, C8_construction_bounds.2.1 0,
    C8_construction_bounds.2.2.1,
    C8_construction_bounds.2.2.2.1 100 (by decide),
    C8_construction_bounds.2.2.2.2.1 ⟨0, 0⟩,
    C8_construction_bounds.2.2.2.2.2.1 ⟨0, 0⟩,
    C8_construction_bounds.2.2.2.2.2.2.1 11 ⟨0, 0⟩ (by decide),
    C8_construction_bounds.2.2.2.2.2.2.2.1 8 8 (by decide) (by decide),
    C8_construction_bounds.2.2.2.2.2.2.2.2.1 80 (by decide),
    C8_construction_bounds.2.2.2.2.2.2.2.2.2.1 9 ⟨0, 0⟩ (by decide) (by decide),
    C8_construction_bounds.2.2.2.2.2.2.2.2.2.2 ⟨0, 0⟩⟩

/-- C1: the Rust box-origin `match` has arms `1..=2 => 0`, `3..=5 => 3`,
`_ => 6`, so coordinate 0 falls into the wildcard arm and maps to origin 6
instead of origin 0. At position (0,0) of the sample board the query
therefore returns the values of the bottom-right box, `[5, 8, 6, 2, 4]`,
while the cells of the top-left box (what the specified origin mapping
selects) hold `[5, 3, 4]`. -/
theorem C1_box_origin_coordinate_zero :
    boxCoord 0 = 6 ∧
    sampleBoard.get_rest_of_box ⟨0, 0⟩ = [5, 8, 6, 2, 4] ∧
    ((sampleBoard.cells.filter (fun c => c.value.isSome &&
        decide (c.position.x ≤ 2 ∧ c.position.y ≤ 2 ∧ c.position ≠ ⟨0, 0⟩))).map
      (fun c => c.value.getD 0)) = [5, 3, 4] ∧
    sampleBoard.get_rest_of_box ⟨0, 0⟩ ≠ [5, 3, 4] := by
  exact ⟨by decide, by decide, by decide, by decide⟩

/-- A character is recovered from its code point. -/
theorem char_eq_ofNat {c : Char} {n : Nat} (h : c.toNat = n) : c = Char.ofNat n := by
  have hh := Char.ofNat_toNat c
  rw [h] at hh
  exact hh.symm

/-- An ASCII-digit character has code point between 48 and 57. -/
theorem isDigit_toNat_bounds {c : Char} (h : c.isDigit = true) :
    48 ≤ c.toNat ∧ c.toNat ≤ 57 := by
  simp only [Char.isDigit, Bool.and_eq_true, decide_eq_true_eq] at h
  obtain ⟨h1, h2⟩ := h
  have h1' : (48 : UInt32) ≤ c.val := h1
  have h2' : c.val ≤ (57 : UInt32) := h2
  rw [UInt32.le_def, BitVec.le_def] at h1' h2'
  exact ⟨h1', h2'⟩

/-- A character passes the `from_str` validity check exactly when it is `'.'`
or one of the digits `'1'`–`'9'`; in particular `'0'` is invalid. -/
theorem invalidChar_false_iff (c : Char) :
    invalidChar c = false ↔ (c = '.' ∨ c = '1' ∨ c = '2' ∨ c = '3' ∨ c = '4' ∨
      c = '5' ∨ c = '6' ∨ c = '7' ∨ c = '8' ∨ c = '9') := by
  constructor
  · intro h
    unfold invalidChar at h
    by_cases hd : c.isDigit = true
    · rw [if_pos hd] at h
      have hb := isDigit_toNat_bounds hd
      simp only [Bool.or_eq_false_iff, beq_eq_false_iff_ne, ne_eq,
        decide_eq_false_iff_not, not_lt] at h
      have h0 : Char.toNat '0' = 48 := rfl
      have h9 : c.toNat = 49 ∨ c.toNat = 50 ∨ c.toNat = 51 ∨ c.toNat = 52 ∨
          c.toNat = 53 ∨ c.toNat = 54 ∨ c.toNat = 55 ∨ c.toNat = 56 ∨
          c.toNat = 57 := by omega
      rcases h9 with h9 | h9 | h9 | h9 | h9 | h9 | h9 | h9 | h9 <;>
        rw [char_eq_ofNat h9] <;> simp
    · rw [if_neg hd] at h
      simp only [bne_eq_false_iff_eq] at h
      exact Or.inl h
  · intro h
    rcases h with h | h | h | h | h | h | h | h | h | h <;> subst h <;> decide

/-- An entry of `enum` pairs an in-range index with the list element there. -/
theorem mem_enum_bounds {l : List Char} {p : Nat × Char} (h : p ∈ l.enum) :
    p.1 < l.length ∧ p.2 ∈ l := by
  rw [List.mem_enum_iff_getElem?] at h
  obtain ⟨hlt, hget⟩ := List.getElem?_eq_some.1 h
  exact ⟨hlt, hget ▸ List.getElem_mem hlt⟩

/-- When every element maps to a success, collecting the results succeeds and
yields the pointwise map. -/
theorem optMapM_eq_map {α β : Type} (f : α → Option β) (g : α → β) :
    ∀ l : List α, (∀ a ∈ l, f a = some (g a)) → optMapM f l = some (l.map g)
  | [], _ => rfl
  | a :: l, h => by
    have ha := h a (List.mem_cons_self a l)
    have hl := optMapM_eq_map f g l (fun x hx => h x (List.mem_cons_of_mem a hx))
    simp [optMapM, ha, hl]

/-- A valid character at an in-range index builds exactly the cell with
value `charVal c` and position `⟨i % 9, i / 9⟩`. -/
theorem charToCell_valid {i : Nat} {c : Char} (hi : i ≤ 80)
    (hc : invalidChar c = false) :
    charToCell i c = some ⟨charVal c, ⟨i % 9, i / 9⟩⟩ := by
  have hfi : Pos.from_index i = some ⟨i % 9, i / 9⟩ := by
    unfold Pos.from_index; rw [if_neg (by omega)]
  rcases (invalidChar_false_iff c).1 hc with h | h | h | h | h | h | h | h | h | h <;>
    subst h <;> simp [charToCell, charVal, hfi, Cell.new]

/-- A successful parse fixes the trimmed length to 81 and determines every
cell from the enumerated characters. -/
theorem parse_ok {cs : List Char} {b : Sudoku} (h : from_str cs = .ok b) :
    (trim cs).length = 81 ∧
    b.cells = (trim cs).enum.map
      (fun p => Cell.mk (charVal p.2) ⟨p.1 % 9, p.1 / 9⟩) := by
  unfold from_str at h
  by_cases hlen : (trim cs).length = 81
  · rw [if_neg (by omega)] at h
    by_cases hinv : (trim cs).any invalidChar = true
    · rw [if_pos hinv] at h
      exact absurd h (by simp)
    · rw [if_neg hinv] at h
      have hmap : optMapM (fun p => charToCell p.1 p.2) (trim cs).enum =
          some ((trim cs).enum.map
            (fun p => Cell.mk (charVal p.2) ⟨p.1 % 9, p.1 / 9⟩)) := by
        apply optMapM_eq_map
        intro p hp
        obtain ⟨h1, h2⟩ := mem_enum_bounds hp
        have hc : invalidChar p.2 = false := by
          rw [Bool.not_eq_true, List.any_eq_false] at hinv
          simpa using hinv p.2 h2
        exact charToCell_valid (by omega) hc
      rw [hmap] at h
      simp only [Except.ok.injEq] at h
      refine ⟨hlen, ?_⟩
      rw [← h]
  · rw [if_pos hlen] at h
    exact absurd h (by simp)

/-- C2: parsing trims surrounding whitespace and then fails with the length
error whenever the trimmed text is not exactly 81 characters, fails with the
distinct invalid-character error whenever it is 81 characters but one of
them lies outside the set of `'.'` and the digits `'1'`–`'9'` (in
particular `'0'` is invalid), and succeeds on exactly 81 valid characters. -/
theorem C2_parse_error_kinds :
    (∀ cs : List Char, (trim cs).length ≠ 81 → from_str cs = .error lengthErr) ∧
    (∀ cs : List Char, (trim cs).length = 81 →
      (trim cs).any invalidChar = true → from_str cs = .error charErr) ∧
    (∀ cs : List Char, (trim cs).length = 81 →
      (trim cs).any invalidChar = false → (from_str cs).isOk = true) ∧
    lengthErr ≠ charErr ∧
    (∀ c : Char, invalidChar c = false ↔ (c = '.' ∨ c = '1' ∨ c = '2' ∨
      c = '3' ∨ c = '4' ∨ c = '5' ∨ c = '6' ∨ c = '7' ∨ c = '8' ∨ c = '9')) ∧
    invalidChar '0' = true := by
  refine ⟨fun cs h => ?_, fun cs h1 h2 => ?_, fun cs h1 h2 => ?_, by decide,
    invalidChar_false_iff, by decide⟩
  · unfold from_str; rw [if_pos h]
  · unfold from_str; rw [if_neg (by omega), if_pos h2]
  · unfold from_str
    rw [if_neg (by omega), if_neg (by simp [h2])]
    have hmap : optMapM (fun p => charToCell p.1 p.2) (trim cs).enum =
        some ((trim cs).enum.map
          (fun p => Cell.mk (charVal p.2) ⟨p.1 % 9, p.1 / 9⟩)) := by
      apply optMapM_eq_map
      intro p hp
      obtain ⟨hb1, hb2⟩ := mem_enum_bounds hp
      have hc : invalidChar p.2 = false := by
        rw [List.any_eq_false] at h2
        simpa using h2 p.2 hb2
      exact charToCell_valid (by omega) hc
    rw [hmap]
    rfl

/-- Witness for C2: an 80-dot text fails with the length error, an 81-zero
text fails with the character error, and the 81-character sample text
parses successfully. -/
theorem C2_parse_error_kinds_witness :
    from_str (List.replicate 80 '.') = .error lengthErr ∧
    from_str (List.replicate 81 '0') = .error charErr ∧
    (from_str sampleStr.toList).isOk = true :=
  ⟨C2_parse_error_kinds.1 (List.replicate 80 '.') (by decide),
    C2_parse_error_kinds.2.1 (List.replicate 81 '0') (by decide) (by decide),
    C2_parse_error_kinds.2.2.1 sampleStr.toList (by decide) (by decide)⟩

/-- C6: a successful parse yields exactly 81 cells, the character at trimmed
offset `i` determines the cell at linear index `i` (`'.'` an empty cell, a
digit `d` the value `d`), and every cell carries the position built from its
index (`x = i % 9`, `y = i / 9`, exactly what `Pos::from_index` returns). -/
theorem C6_parse_cell_layout :
    ∀ (cs : List Char) (b : Sudoku) (i : Nat), from_str cs = .ok b → i ≤ 80 →
    b.cells.length = 81 ∧
    b.cells = (trim cs).enum.map
      (fun p => Cell.mk (charVal p.2) ⟨p.1 % 9, p.1 / 9⟩) ∧
    charVal '.' = none ∧ charVal '1' = some 1 ∧ charVal '2' = some 2 ∧
    charVal '3' = some 3 ∧ charVal '4' = some 4 ∧ charVal '5' = some 5 ∧
    charVal '6' = some 6 ∧ charVal '7' = some 7 ∧ charVal '8' = some 8 ∧
    charVal '9' = some 9 ∧
    Pos.from_index i = some ⟨i % 9, i / 9⟩ := by
  intro cs b i h hi
  obtain ⟨h1, h2⟩ := parse_ok h
  refine ⟨?_, h2, by decide, by decide, by decide, by decide, by decide,
    by decide, by decide, by decide, by decide, by decide, ?_⟩
  · rw [h2]; simp [h1]
  · unfold Pos.from_index; rw [if_neg (by omega)]

/-- Witness for C6 at the sample text and index 80. -/
theorem C6_parse_cell_layout_witness :
    sampleBoard.cells.length = 81 ∧
    sampleBoard.cells = (trim sampleStr.toList).enum.map
      (fun p => Cell.mk (charVal p.2) ⟨p.1 % 9, p.1 / 9⟩) ∧
    charVal '.' = none ∧ charVal '1' = some 1 ∧ charVal '2' = some 2 ∧
    charVal '3' = some 3 ∧ charVal '4' = some 4 ∧ charVal '5' = some 5 ∧
    charVal '6' = some 6 ∧ charVal '7' = some 7 ∧ charVal '8' = some 8 ∧
    charVal '9' = some 9 ∧
    Pos.from_index 80 = some ⟨80 % 9, 80 / 9⟩ :=
  C6_parse_cell_layout sampleStr.toList sampleBoard 80 (by rfl) (by decide)

/-- Filtering by a predicate subsumed by an earlier filter keeps only the
later predicate. -/
theorem filter_subsumed {α : Type} {p q : α → Bool}
    (h : ∀ a, q a = true → p a = true) (l : List α) :
    (l.filter p).filter q = l.filter q := by
  rw [List.filter_filter]
  apply List.filter_congr
  intro a _
  cases hq : q a
  · simp
  · simp [h a hq]

/-- C7: none of the row, column or box peer queries for `pos` ever draws on
the cell located at `pos` itself, even when it is present: deleting that
cell from the board leaves all three query results unchanged. -/
theorem C7_peer_queries_exclude_self (b : Sudoku) (pos : Pos) :
    (Sudoku.mk (b.cells.filter
        (fun c => decide (c.position ≠ pos)))).get_rest_of_row pos
      = b.get_rest_of_row pos ∧
    (Sudoku.mk (b.cells.filter
        (fun c => decide (c.position ≠ pos)))).get_rest_of_column pos
      = b.get_rest_of_column pos ∧
    (Sudoku.mk (b.cells.filter
        (fun c => decide (c.position ≠ pos)))).get_rest_of_box pos
      = b.get_rest_of_box pos := by
  refine ⟨?_, ?_, ?_⟩
  · unfold Sudoku.get_rest_of_row Sudoku.rowMatches
    apply congrArg
    rw [List.filter_filter, List.filter_filter, List.filter_filter]
    apply List.filter_congr
    intro c _
    cases hr : (c.position.y == pos.y && c.position.x != pos.x)
    · simp [hr]
    · have hpne : decide (c.position ≠ pos) = true := by
        simp only [Bool.and_eq_true, beq_iff_eq, bne_iff_ne, ne_eq] at hr
        simp only [decide_eq_true_eq, ne_eq]
        intro heq
        exact hr.2 (congrArg Pos.x heq)
      simp [hr, hpne]
  · unfold Sudoku.get_rest_of_column Sudoku.colMatches
    apply congrArg
    rw [List.filter_filter, List.filter_filter, List.filter_filter]
    apply List.filter_congr
    intro c _
    cases hr : (c.position.x == pos.x && c.position.y != pos.y)
    · simp [hr]
    · have hpne : decide (c.position ≠ pos) = true := by
        simp only [Bool.and_eq_true, beq_iff_eq, bne_iff_ne, ne_eq] at hr
        simp only [decide_eq_true_eq, ne_eq]
        intro heq
        exact hr.2 (congrArg Pos.y heq)
      simp [hr, hpne]
  · unfold Sudoku.get_rest_of_box Sudoku.boxMatches
    apply congrArg
    rw [List.filter_filter, List.filter_filter, List.filter_filter]
    apply List.filter_congr
    intro c _
    cases hr : (decide (boxCoord pos.x ≤ c.position.x ∧
        c.position.x ≤ boxCoord pos.x + 2 ∧
        boxCoord pos.y ≤ c.position.y ∧
        c.position.y ≤ boxCoord pos.y + 2 ∧ c.position ≠ pos))
    · simp [hr]
    · have hpne : decide (c.position ≠ pos) = true := by
        simp only [decide_eq_true_eq] at hr
        simp only [decide_eq_true_eq, ne_eq]
        exact hr.2.2.2.2
      simp [hr, hpne]

/-- C5: the constraint set of a cell holds exactly the digits of the union
of its row, column and box peers, with duplicates collapsed (the result is
duplicate-free) and no order guaranteed; on the sample board the constraint
set of the cell at (7,1), once sorted, is `[1,4,5,6,7,8]`. -/
theorem C5_constraint_set_union :
    (∀ (b : Sudoku) (c : Cell) (v : Nat),
      v ∈ c.get_constraints b ↔ (v ∈ b.get_rest_of_row c.position ∨
        v ∈ b.get_rest_of_column c.position ∨ v ∈ b.get_rest_of_box c.position)) ∧
    (∀ (b : Sudoku) (c : Cell), (c.get_constraints b).Nodup) ∧
    (sampleBoard.get_cell_at_pos ⟨7, 1⟩).map
      (fun c => (c.get_constraints sampleBoard).insertionSort (· ≤ ·)) =
      some [1, 4, 5, 6, 7, 8] := by
  refine ⟨?_, ?_, by decide⟩
  · intro b c v
    simp [Cell.get_constraints, List.mem_append, or_assoc]
  · intro b c
    exact List.nodup_dedup _

/-- A value produced by the digit mapping lies in `[1, 9]`. -/
theorem charVal_bound {c : Char} {v : Nat} (h : charVal c = some v) :
    1 ≤ v ∧ v ≤ 9 := by
  unfold charVal at h
  split_ifs at h <;> simp_all <;> omega

/-- Every present value stored in a parsed board lies in `[1, 9]`. -/
theorem parse_cell_value {cs : List Char} {b : Sudoku} (h : from_str cs = .ok b) :
    ∀ c ∈ b.cells, ∀ v, c.value = some v → 1 ≤ v ∧ v ≤ 9 := by
  obtain ⟨-, h2⟩ := parse_ok h
  intro c hc v hv
  rw [h2] at hc
  simp only [List.mem_map] at hc
  obtain ⟨p, -, rfl⟩ := hc
  exact charVal_bound hv

/-- Any cell surviving the present-value filter of a peer query on a parsed
board yields a value in `[1, 9]` (so the modelled `unwrap` default is never
used). -/
theorem matches_value_bound {cs : List Char} {b : Sudoku}
    (h : from_str cs = .ok b) {c : Cell} {q : Cell → Bool}
    (hc : c ∈ (b.cells.filter (fun c => c.value.isSome)).filter q) :
    1 ≤ c.value.getD 0 ∧ c.value.getD 0 ≤ 9 := by
  rw [List.mem_filter, List.mem_filter] at hc
  obtain ⟨⟨hcm, hsome⟩, -⟩ := hc
  obtain ⟨v, hv⟩ := Option.isSome_iff_exists.1 hsome
  have hb := parse_cell_value h c hcm v hv
  rw [hv]
  simpa using hb

/-- C10: on a board produced by a successful parse, every value yielded by
the row-peer, column-peer, box-peer and constraint-set queries is a digit in
`[1, 9]`: empty cells are filtered out before the value is unwrapped and
cell construction rejects present values outside `[1, 9]`. -/
theorem C10_peer_values_in_range :
    ∀ (cs : List Char) (b : Sudoku) (pos : Pos) (cl : Cell) (v : Nat),
    from_str cs = .ok b →
    (v ∈ b.get_rest_of_row pos → 1 ≤ v ∧ v ≤ 9) ∧
    (v ∈ b.get_rest_of_column pos → 1 ≤ v ∧ v ≤ 9) ∧
    (v ∈ b.get_rest_of_box pos → 1 ≤ v ∧ v ≤ 9) ∧
    (v ∈ cl.get_constraints b → 1 ≤ v ∧ v ≤ 9) := by
  intro cs b pos cl v h
  have hrow : ∀ p : Pos, v ∈ b.get_rest_of_row p → 1 ≤ v ∧ v ≤ 9 := by
    intro p hv
    unfold Sudoku.get_rest_of_row Sudoku.rowMatches at hv
    rw [List.mem_map] at hv
    obtain ⟨c, hc, rfl⟩ := hv
    exact matches_value_bound h hc
  have hcol : ∀ p : Pos, v ∈ b.get_rest_of_column p → 1 ≤ v ∧ v ≤ 9 := by
    intro p hv
    unfold Sudoku.get_rest_of_column Sudoku.colMatches at hv
    rw [List.mem_map] at hv
    obtain ⟨c, hc, rfl⟩ := hv
    exact matches_value_bound h hc
  have hbox : ∀ p : Pos, v ∈ b.get_rest_of_box p → 1 ≤ v ∧ v ≤ 9 := by
    intro p hv
    unfold Sudoku.get_rest_of_box Sudoku.boxMatches at hv
    rw [List.mem_map] at hv
    obtain ⟨c, hc, rfl⟩ := hv
    exact matches_value_bound h hc
  refine ⟨hrow pos, hcol pos, hbox pos, ?_⟩
  intro hv
  unfold Cell.get_constraints at hv
  rw [List.mem_dedup, List.mem_append, List.mem_append] at hv
  rcases hv with (hv | hv) | hv
  · exact hrow cl.position hv
  · exact hcol cl.position hv
  · exact hbox cl.position hv

/-- Witness for C10 on the sample board at position (5,4) and value 9. -/
theorem C10_peer_values_in_range_witness :
    from_str sampleStr.toList = .ok sampleBoard ∧
    ((9 ∈ sampleBoard.get_rest_of_row ⟨5, 4⟩ → 1 ≤ 9 ∧ 9 ≤ 9) ∧
      (9 ∈ sampleBoard.get_rest_of_column ⟨5, 4⟩ → 1 ≤ 9 ∧ 9 ≤ 9) ∧
      (9 ∈ sampleBoard.get_rest_of_box ⟨5, 4⟩ → 1 ≤ 9 ∧ 9 ≤ 9) ∧
      (9 ∈ (Cell.mk (some 4) ⟨5, 4⟩).get_constraints sampleBoard →
        1 ≤ 9 ∧ 9 ≤ 9)) :=
  ⟨by rfl, C10_peer_values_in_range sampleStr.toList sampleBoard ⟨5, 4⟩
    (Cell.mk (some 4) ⟨5, 4⟩) 9 (by rfl)⟩

/-- A position built by `Pos::new` has both coordinates in `[0, 8]`. -/
theorem pos_new_bounds {x y : Nat} {p : Pos} (h : Pos.new x y = some p) :
    p.x ≤ 8 ∧ p.y ≤ 8 := by
  unfold Pos.new at h
  by_cases hc : x > 8 ∨ y > 8
  · rw [if_pos hc] at h
    cases h
  · rw [if_neg hc] at h
    injection h with h
    rw [← h]
    refine ⟨?_, ?_⟩ <;> simp <;> omega

/-- A position built by `Pos::from_index` has both coordinates in `[0, 8]`. -/
theorem pos_from_index_bounds {i : Nat} {p : Pos}
    (h : Pos.from_index i = some p) : p.x ≤ 8 ∧ p.y ≤ 8 := by
  unfold Pos.from_index at h
  by_cases hc : i > 80
  · rw [if_pos hc] at h
    cases h
  · rw [if_neg hc] at h
    injection h with h
    rw [← h]
    constructor <;> simp <;> omega

/-- On a parsed board exactly one cell sits at any valid position. -/
theorem parse_unique_cell {cs : List Char} {b : Sudoku}
    (h : from_str cs = .ok b) {p : Pos} (hx : p.x ≤ 8) (hy : p.y ≤ 8) :
    (b.cells.filter (fun c => decide (c.position = p))).length = 1 := by
  obtain ⟨px, py⟩ := p
  simp only at hx hy
  obtain ⟨h1, h2⟩ := parse_ok h
  rw [← List.countP_eq_length_filter, h2, List.countP_map]
  have hfst : (trim cs).enum.countP
        ((fun i => decide (Pos.mk (i % 9) (i / 9) = ⟨px, py⟩)) ∘ Prod.fst) =
      (List.range (trim cs).length).countP
        (fun i => decide (Pos.mk (i % 9) (i / 9) = ⟨px, py⟩)) := by
    rw [← List.enum_map_fst (trim cs), List.countP_map]
  rw [show ((fun c : Cell => decide (c.position = ⟨px, py⟩)) ∘
        (fun pr : Nat × Char => Cell.mk (charVal pr.2) ⟨pr.1 % 9, pr.1 / 9⟩)) =
      ((fun i => decide (Pos.mk (i % 9) (i / 9) = ⟨px, py⟩)) ∘ Prod.fst) from rfl]
  rw [hfst, h1]
  have hcong : (List.range 81).countP
        (fun i => decide (Pos.mk (i % 9) (i / 9) = ⟨px, py⟩)) =
      (List.range 81).countP (fun i => i == py * 9 + px) := by
    apply List.countP_congr
    intro i hi
    rw [List.mem_range] at hi
    simp only [decide_eq_true_eq, Pos.mk.injEq, beq_iff_eq]
    omega
  rw [hcong]
  have : (List.range 81).countP (fun i => i == py * 9 + px) =
      (List.range 81).count (py * 9 + px) := rfl
  rw [this]
  exact List.count_eq_one_of_mem (List.nodup_range 81)
    (List.mem_range.2 (by omega))

/-- A position matched by exactly one cell is found by the lookup. -/
theorem lookup_isSome_of_filter {b : Sudoku} {p : Pos}
    (h : (b.cells.filter (fun c => decide (c.position = p))).length = 1) :
    (b.get_cell_at_pos p).isSome = true := by
  unfold Sudoku.get_cell_at_pos
  rw [List.find?_isSome]
  have hpos : 0 < (b.cells.filter (fun c => decide (c.position = p))).length := by
    omega
  rw [List.length_pos_iff_exists_mem] at hpos
  obtain ⟨c, hc⟩ := hpos
  rw [List.mem_filter] at hc
  exact ⟨c, hc.1, hc.2⟩

/-- C9: on a board produced by a successful parse, cell lookup succeeds for
every position built through the validated constructors (`Pos::new` or
`Pos::from_index`): exactly one cell matches and the `find`-based lookup
returns it, so the source's `unwrap` is unreachable. -/
theorem C9_lookup_succeeds :
    ∀ (cs : List Char) (b : Sudoku) (x y idx : Nat) (p q : Pos),
    from_str cs = .ok b → Pos.new x y = some p → Pos.from_index idx = some q →
    ((b.cells.filter (fun c => decide (c.position = p))).length = 1 ∧
      (b.get_cell_at_pos p).isSome = true) ∧
    ((b.cells.filter (fun c => decide (c.position = q))).length = 1 ∧
      (b.get_cell_at_pos q).isSome = true) := by
  intro cs b x y idx p q h hp hq
  obtain ⟨hpx, hpy⟩ := pos_new_bounds hp
  obtain ⟨hqx, hqy⟩ := pos_from_index_bounds hq
  have h1 := parse_unique_cell h hpx hpy
  have h2 := parse_unique_cell h hqx hqy
  exact ⟨⟨h1, lookup_isSome_of_filter h1⟩, ⟨h2, lookup_isSome_of_filter h2⟩⟩

/-- Witness for C9 on the sample board at positions (7,1) and index 32. -/
theorem C9_lookup_succeeds_witness :
    ((sampleBoard.cells.filter
        (fun c => decide (c.position = ⟨7, 1⟩))).length = 1 ∧
      (sampleBoard.get_cell_at_pos ⟨7, 1⟩).isSome = true) ∧
    ((sampleBoard.cells.filter
        (fun c => decide (c.position = ⟨5, 3⟩))).length = 1 ∧
      (sampleBoard.get_cell_at_pos ⟨5, 3⟩).isSome = true) :=
  C9_lookup_succeeds sampleStr.toList sampleBoard 7 1 32 ⟨7, 1⟩ ⟨5, 3⟩
    (by rfl) (by decide) (by decide)

/-- The position indices of a parsed board's cells are `0, 1, ..., 80` in
order. -/
theorem parse_index_list {cs : List Char} {b : Sudoku}
    (h : from_str cs = .ok b) :
    b.cells.map (fun c => c.position.to_index) = List.range 81 := by
  obtain ⟨h1, h2⟩ := parse_ok h
  rw [h2, List.map_map]
  have hpt : ∀ pr ∈ (trim cs).enum,
      ((fun c : Cell => c.position.to_index) ∘
        (fun p : Nat × Char => Cell.mk (charVal p.2) ⟨p.1 % 9, p.1 / 9⟩)) pr =
      Prod.fst pr := by
    intro pr hpr
    simp only [Function.comp_apply, Pos.to_index]
    omega
  rw [List.map_congr_left hpt, List.enum_map_fst, h1]

/-- C4: the row-peer query yields the values of exactly the other present
cells sharing the row (membership characterisation over any board), and on a
parsed board the matched cells come in strictly ascending `x` (equivalently
index) order, the value list being their image; on the sample board the row
peers of (5,4) are `[9, 8, 2, 5]`. -/
theorem C4_row_peers :
    ∀ (b : Sudoku) (pos : Pos) (v : Nat) (cs : List Char) (bp : Sudoku),
    from_str cs = .ok bp →
    (v ∈ b.get_rest_of_row pos ↔ ∃ c ∈ b.cells, c.value = some v ∧
      c.position.y = pos.y ∧ c.position.x ≠ pos.x) ∧
    ((bp.rowMatches pos).map (fun c => c.position.x)).Pairwise (· < ·) ∧
    bp.get_rest_of_row pos = (bp.rowMatches pos).map (fun c => c.value.getD 0) ∧
    sampleBoard.get_rest_of_row ⟨5, 4⟩ = [9, 8, 2, 5] := by
  intro b pos v cs bp hparse
  refine ⟨?_, ?_, rfl, by decide⟩
  · constructor
    · intro hv
      unfold Sudoku.get_rest_of_row Sudoku.rowMatches at hv
      simp only [List.mem_map, List.mem_filter, Bool.and_eq_true, beq_iff_eq,
        bne_iff_ne, ne_eq] at hv
      obtain ⟨c, ⟨⟨hcm, hsome⟩, hy, hx⟩, rfl⟩ := hv
      obtain ⟨w, hw⟩ := Option.isSome_iff_exists.1 hsome
      refine ⟨c, hcm, ?_, hy, hx⟩
      rw [hw]
      simp
    · rintro ⟨c, hcm, hv, hy, hx⟩
      unfold Sudoku.get_rest_of_row Sudoku.rowMatches
      simp only [List.mem_map, List.mem_filter, Bool.and_eq_true, beq_iff_eq,
        bne_iff_ne, ne_eq]
      exact ⟨c, ⟨⟨hcm, by simp [hv]⟩, hy, hx⟩, by simp [hv]⟩
  · have hidx := parse_index_list hparse
    have hsub : List.Sublist
        ((bp.rowMatches pos).map (fun c => c.position.to_index))
        (bp.cells.map (fun c => c.position.to_index)) :=
      ((List.filter_sublist _).trans (List.filter_sublist _)).map _
    rw [hidx] at hsub
    have hpw : ((bp.rowMatches pos).map
        (fun c => c.position.to_index)).Pairwise (· < ·) :=
      (List.pairwise_lt_range 81).sublist hsub
    have hy : ∀ c ∈ bp.rowMatches pos, c.position.y = pos.y := by
      intro c hc
      unfold Sudoku.rowMatches at hc
      rw [List.mem_filter] at hc
      have hb := hc.2
      simp only [Bool.and_eq_true, beq_iff_eq] at hb
      exact hb.1
    rw [List.pairwise_map] at hpw ⊢
    apply hpw.imp_of_mem
    intro a c ha hc hlt
    have hya := hy a ha
    have hyc := hy c hc
    unfold Pos.to_index at hlt
    omega

/-- Witness for C4 on the sample board at position (5,4) and value 9. -/
theorem C4_row_peers_witness :
    (9 ∈ sampleBoard.get_rest_of_row ⟨5, 4⟩ ↔ ∃ c ∈ sampleBoard.cells,
      c.value = some 9 ∧ c.position.y = (4 : Nat) ∧ c.position.x ≠ (5 : Nat)) ∧
    ((sampleBoard.rowMatches ⟨5, 4⟩).map
      (fun c => c.position.x)).Pairwise (· < ·) ∧
    sampleBoard.get_rest_of_row ⟨5, 4⟩ =
      (sampleBoard.rowMatches ⟨5, 4⟩).map (fun c => c.value.getD 0) ∧
    sampleBoard.get_rest_of_row ⟨5, 4⟩ = [9, 8, 2, 5] :=
  C4_row_peers sampleBoard ⟨5, 4⟩ 9 sampleStr.toList sampleBoard (by rfl)
